import Mathlib

/-!
Verification of the channel-coding engine of `src/effects/channel_code.py`.

Bits are modelled as `Bool` (the source uses integers 0/1; `^` on 0/1 values is
boolean xor and `1 - b` is boolean negation).  Audio samples are modelled as `ℚ`,
the exact-arithmetic reading of the source's float values.  The fallible block
codecs (which raise `ValueError` on a wrong block size) return `Option`.
-/

namespace ChannelCode

/-- `bits[i] = 1 - bits[i]`: flip the bit at index `i` (0-based). -/
def flipBit (l : List Bool) (i : Nat) : List Bool := l.set i (!(l.getD i false))

/-- Core of `HammingCodeEffect._hamming_7_4_encode` (channel_code.py:19-25):
parity bits `p1 = d1 ^ d2 ^ d4`, `p2 = d1 ^ d3 ^ d4`, `p3 = d2 ^ d3 ^ d4`,
output `[p1, p2, d1, p3, d2, d3, d4]`. -/
def hammingEncodeBlock (d1 d2 d3 d4 : Bool) : List Bool :=
  let p1 := Bool.xor (Bool.xor d1 d2) d4
  let p2 := Bool.xor (Bool.xor d1 d3) d4
  let p3 := Bool.xor (Bool.xor d2 d3) d4
  [p1, p2, d1, p3, d2, d3, d4]

/-- `HammingCodeEffect._hamming_7_4_encode` (channel_code.py:15-25); a list whose
length is not 4 raises `ValueError`, modelled as `none`. -/
def hamming_7_4_encode : List Bool → Option (List Bool)
  | [d1, d2, d3, d4] => some (hammingEncodeBlock d1 d2 d3 d4)
  | _ => none

/-- Core of `HammingCodeEffect._hamming_7_4_decode` (channel_code.py:33-46):
syndromes `s1 = p1 ^ d1 ^ d2 ^ d4`, `s2 = p2 ^ d1 ^ d3 ^ d4`,
`s3 = p3 ^ d2 ^ d3 ^ d4`; `error_pos = s3*4 + s2*2 + s1*1`; if
`error_pos != 0 and error_pos <= 7` the bit at 1-based position `error_pos`
is flipped; the result is the data positions `[d1, d2, d3, d4]`
(indices 2, 4, 5, 6 of the possibly corrected block). -/
def hammingDecodeBlock (p1 p2 d1 p3 d2 d3 d4 : Bool) : List Bool :=
  let s1 := Bool.xor (Bool.xor (Bool.xor p1 d1) d2) d4
  let s2 := Bool.xor (Bool.xor (Bool.xor p2 d1) d3) d4
  let s3 := Bool.xor (Bool.xor (Bool.xor p3 d2) d3) d4
  let errorPos := s3.toNat * 4 + s2.toNat * 2 + s1.toNat * 1
  let bits := [p1, p2, d1, p3, d2, d3, d4]
  let bits2 := if errorPos ≠ 0 ∧ errorPos ≤ 7 then flipBit bits (errorPos - 1) else bits
  [bits2.getD 2 false, bits2.getD 4 false, bits2.getD 5 false, bits2.getD 6 false]

/-- `HammingCodeEffect._hamming_7_4_decode` (channel_code.py:27-46); a list whose
length is not 7 raises `ValueError`, modelled as `none`. -/
def hamming_7_4_decode : List Bool → Option (List Bool)
  | [b1, b2, b3, b4, b5, b6, b7] => some (hammingDecodeBlock b1 b2 b3 b4 b5 b6 b7)
  | _ => none

/-- `np.clip(x, lo, hi)` on scalars. -/
def clipQ (lo hi x : ℚ) : ℚ := max lo (min hi x)

/-- `.astype(np.int32)` applied to a float value: truncation toward zero. -/
def astypeInt (x : ℚ) : ℤ := if 0 ≤ x then ⌊x⌋ else ⌈x⌉

/-- Quantization of one sample, float branch of `_audio2bits_safe`
(channel_code.py:51-54): clip to [-1, 1], multiply by 32767, clip to
[-32768, 32767], truncate to an integer. -/
def quantizeSample (x : ℚ) : ℤ :=
  astypeInt (clipQ (-32768) 32767 (32767 * clipQ (-1) 1 x))

/-- The 16 bits of one quantized sample, MSB first
(channel_code.py:65-66: `chunk_bits[:, 15 - j] = (chunk >> j) & 1`):
bit `j` of the two's-complement int32 value `v` is bit `j` of `v mod 2^16`
for `j < 16`, and it is stored at output index `15 - j`. -/
def sampleToBits (v : ℤ) : List Bool :=
  (List.range 16).map (fun i => Nat.testBit (v % 65536).toNat (15 - i))

/-- The chunking loop `for i in range(0, len(audio_int), self._chunk_size)` with
`_chunk_size = 1000` (channel_code.py:60-61). -/
def chunked1000 (l : List ℤ) : List (List ℤ) :=
  if l = [] then [] else l.take 1000 :: chunked1000 (l.drop 1000)
termination_by l.length
decreasing_by
  rename_i h
  have : l.length ≠ 0 := fun hl => h (List.eq_nil_of_length_eq_zero hl)
  simp only [List.length_drop]
  omega

/-- `HammingCodeEffect._audio2bits_safe` (channel_code.py:48-70): quantize every
sample to `audio_int`, then per chunk of 1000 samples build the
`(len(chunk), 16)` bit matrix and concatenate the flattened rows. -/
def audio2bits_safe (audio : List ℚ) : List Bool :=
  let audioInt := audio.map quantizeSample
  (((chunked1000 audioInt).map (fun chunk => chunk.flatMap sampleToBits))).flatten

/-- `val = (val << 1) | int(bit)` folded over one 16-bit group, MSB first
(channel_code.py:88-90). -/
def bitsVal (group : List Bool) : Nat :=
  group.foldl (fun val bit => (val <<< 1) ||| bit.toNat) 0

/-- One sample from one 16-bit group (channel_code.py:85-100): rebuild the
16-bit word, reinterpret as signed (`if val & 0x8000: val -= 65536`), clip to
[-32768, 32767], divide by 32768.0 and clip to [-1, 1]. -/
def sampleOfBits (group : List Bool) : ℚ :=
  let val := bitsVal group
  let sval : ℤ := if val &&& 0x8000 ≠ 0 then (val : ℤ) - 65536 else (val : ℤ)
  let clipped : ℤ := max (-32768) (min 32767 sval)
  clipQ (-1) 1 ((clipped : ℚ) / 32768)

/-- The row loop over `bits_reshaped = bits.reshape(-1, 16)`
(channel_code.py:83-96); the input length is a multiple of 16 after padding,
so only full groups of 16 occur. -/
def decodeSamples : List Bool → List ℚ
  | b1 :: b2 :: b3 :: b4 :: b5 :: b6 :: b7 :: b8 ::
    b9 :: b10 :: b11 :: b12 :: b13 :: b14 :: b15 :: b16 :: rest =>
      sampleOfBits [b1, b2, b3, b4, b5, b6, b7, b8,
                    b9, b10, b11, b12, b13, b14, b15, b16] :: decodeSamples rest
  | _ => []

/-- `HammingCodeEffect._bits2audio_safe` (channel_code.py:72-102): pad with zero
bits to a multiple of 16, then decode each 16-bit group to one sample. -/
def bits2audio_safe (bits : List Bool) : List ℚ :=
  decodeSamples (if bits.length % 16 = 0 then bits
                 else bits ++ List.replicate (16 - bits.length % 16) false)

/-- The Hamming encode loop (channel_code.py:136-140 and 356-360): encode each
consecutive group of 4 bits; `num_groups = len // 4`, so a trailing fragment of
fewer than 4 bits is not processed. -/
def hammingEncodeStream : List Bool → List Bool
  | d1 :: d2 :: d3 :: d4 :: rest =>
      hammingEncodeBlock d1 d2 d3 d4 ++ hammingEncodeStream rest
  | _ => []

/-- The Hamming decode loop (channel_code.py:145-150 and 377-381): decode each
consecutive group of 7 bits; `num_coded_groups = len // 7`, so a trailing
fragment of fewer than 7 bits is not processed. -/
def hammingDecodeStream : List Bool → List Bool
  | b1 :: b2 :: b3 :: b4 :: b5 :: b6 :: b7 :: rest =>
      hammingDecodeBlock b1 b2 b3 b4 b5 b6 b7 ++ hammingDecodeStream rest
  | _ => []

/-- `pad_len = (4 - orig_len % 4) % 4; bits_pad = np.pad(bits, (0, pad_len))`
(channel_code.py:131-133 and 352-354). -/
def padTo4 (bits : List Bool) : List Bool :=
  bits ++ List.replicate ((4 - bits.length % 4) % 4) false

/-- `self.polynomial = 0xEDB88320` (channel_code.py:189). -/
def polynomial : Nat := 0xEDB88320

/-- `self.crc_length = 32` (channel_code.py:190). -/
def crc_length : Nat := 32

/-- One iteration of the CRC-32 bit loop (channel_code.py:201-202):
`crc = (crc >> 1) ^ polynomial if ((crc ^ bit) & 1) else crc >> 1`. -/
def crcUpdate (crc : Nat) (bit : Bool) : Nat :=
  if (crc ^^^ bit.toNat) &&& 1 = 1 then (crc >>> 1) ^^^ polynomial else crc >>> 1

/-- The CRC-32 register after the loop with initial value `0xFFFFFFFF` and the
final xor with `0xFFFFFFFF` (channel_code.py:199-203). -/
def crc32_val (data_bits : List Bool) : Nat :=
  (data_bits.foldl crcUpdate 0xFFFFFFFF) ^^^ 0xFFFFFFFF

/-- `crc_bits = [(crc >> i) & 1 for i in range(31, -1, -1)]`
(channel_code.py:205): the 32 CRC bits MSB first. -/
def crcValBits (crc : Nat) : List Bool :=
  ((List.range crc_length).reverse).map (fun i => decide ((crc >>> i) &&& 1 = 1))

/-- `CRC32Effect._crc32_encode` (channel_code.py:197-206): append the 32 CRC
bits to the data bits. -/
def crc32_encode (data_bits : List Bool) : List Bool :=
  data_bits ++ crcValBits (crc32_val data_bits)

/-- `CRC32Effect._crc32_check` (channel_code.py:208-225): inputs shorter than 32
bits yield `(False, coded_bits)`; otherwise split off the trailing 32 bits,
recompute the CRC over the rest and compare. -/
def crc32_check (coded_bits : List Bool) : Bool × List Bool :=
  if coded_bits.length < crc_length then (false, coded_bits)
  else
    let data_bits := coded_bits.take (coded_bits.length - crc_length)
    let crc_bits := coded_bits.drop (coded_bits.length - crc_length)
    (decide (crcValBits (crc32_val data_bits) = crc_bits), data_bits)

/-- The channel noise of `CombinedChannelCodeEffect.process` step 4
(channel_code.py:367-369) at `errorRate = 0`: `np.random.choice` with
`p = [1, 0]` draws the all-zero noise vector, and `(bits + 0) % 2 = bits`. -/
def addNoiseZero (bits : List Bool) : List Bool := bits

/-- `CombinedChannelCodeEffect.process` (channel_code.py:347-391) for one
channel with `errorRate = 0`: audio to bits, pad to a multiple of 4, Hamming
encode, CRC encode, channel, CRC check (split off the checksum), Hamming
decode, truncate to the pre-padding length, bits to audio, truncate to the
channel length. -/
def combinedProcessChannel (chan : List ℚ) : List ℚ :=
  let bits := audio2bits_safe chan
  let origLen := bits.length
  let bitsPad := padTo4 bits
  let hammingCoded := hammingEncodeStream bitsPad
  let crcCoded := crc32_encode hammingCoded
  let codedNoise := addNoiseZero crcCoded
  let afterCrc := (crc32_check codedNoise).2
  let decoded := (hammingDecodeStream afterCrc).take origLen
  let chanProc := bits2audio_safe decoded
  chanProc.take (min chanProc.length chan.length)

/-- The CRC validity flag computed (and logged) in step 5 of
`CombinedChannelCodeEffect.process` (channel_code.py:372-374). -/
def combinedCrcOk (chan : List ℚ) : Bool :=
  (crc32_check (addNoiseZero (crc32_encode (hammingEncodeStream
    (padTo4 (audio2bits_safe chan)))))).1

/-- `HammingEncoder._hamming_encode_only` (channel_code.py:442-460): pad to a
multiple of 4, encode each group with the inlined parity formulas, truncate to
`output_len = orig_len * 7 // 4`. -/
def hamming_encode_only (bits : List Bool) : List Bool :=
  (hammingEncodeStream (padTo4 bits)).take (bits.length * 7 / 4)

/-- The value of one sample after quantization and reconstruction:
`_bits2audio_safe` of `_audio2bits_safe` at the sample level. -/
def sampleRoundtrip (x : ℚ) : ℚ := sampleOfBits (sampleToBits (quantizeSample x))

end ChannelCode

namespace ChannelCode

/-- C1: for every 4-bit data pattern `d`, `decodeBlock (encodeBlock d) = d`,
and for every one of the 7 single-bit-flip positions `pos`,
`decodeBlock (flip (encodeBlock d) pos) = d`. -/
theorem c1_hamming_roundtrip_and_single_error_correction :
    (∀ (d1 d2 d3 d4 : Bool),
      (hamming_7_4_encode [d1, d2, d3, d4]).bind hamming_7_4_decode
        = some [d1, d2, d3, d4]) ∧
    (∀ (d1 d2 d3 d4 : Bool) (pos : Fin 7),
      ((hamming_7_4_encode [d1, d2, d3, d4]).map (fun c => flipBit c pos.val)).bind
        hamming_7_4_decode = some [d1, d2, d3, d4]) := by
  constructor <;> decide

/-- C5: `encodeBlock (d1, d2, d3, d4)` returns
`[p1, p2, d1, p3, d2, d3, d4]` with `p1 = d1 ^ d2 ^ d4`, `p2 = d1 ^ d3 ^ d4`,
`p3 = d2 ^ d3 ^ d4`; concretely `encodeBlock (1,0,1,1) = [0,1,1,0,0,1,1]`. -/
theorem c5_encode_block_parity_bits :
    (∀ d1 d2 d3 d4 : Bool,
      hamming_7_4_encode [d1, d2, d3, d4]
        = some [Bool.xor (Bool.xor d1 d2) d4, Bool.xor (Bool.xor d1 d3) d4, d1,
                Bool.xor (Bool.xor d2 d3) d4, d2, d3, d4]) ∧
    hamming_7_4_encode [true, false, true, true]
      = some [false, true, true, false, false, true, true] := by
  constructor <;> decide

/-- C9: on every 7-bit input (in particular any double corruption of a valid
codeword) `decodeBlock` raises no error and returns exactly 4 bits. -/
theorem c9_decode_fixed_length_on_any_seven_bits :
    (∀ l : List Bool, l.length = 7 →
      (hamming_7_4_decode l).map List.length = some 4) ∧
    (∀ (d1 d2 d3 d4 : Bool) (i j : Fin 7),
      (hamming_7_4_decode
          (flipBit (flipBit (hammingEncodeBlock d1 d2 d3 d4) i.val) j.val)).map
        List.length = some 4) := by
  constructor
  · intro l hl
    rcases l with _ | ⟨b1, _ | ⟨b2, _ | ⟨b3, _ | ⟨b4, _ | ⟨b5, _ | ⟨b6, _ | ⟨b7, _ | ⟨b8, t⟩⟩⟩⟩⟩⟩⟩⟩ <;>
      simp only [List.length_cons, List.length_nil] at hl <;> try omega
    revert b1 b2 b3 b4 b5 b6 b7
    decide
  · decide

theorem c9_witness :
    (hamming_7_4_decode [true, false, true, false, false, true, true]).map
      List.length = some 4 :=
  c9_decode_fixed_length_on_any_seven_bits.1
    [true, false, true, false, false, true, true] (by decide)

/-- C10: `crc32_check` on an input of fewer than 32 bits returns validity
`false` together with the whole input unchanged, without splitting off a
checksum. -/
theorem c10_check_short_input :
    ∀ bits : List Bool, bits.length < 32 → crc32_check bits = (false, bits) := by
  intro bits h
  simp [crc32_check, crc_length, h]

theorem c10_witness : crc32_check [true, true, false] = (false, [true, true, false]) :=
  c10_check_short_input [true, true, false] (by decide)

end ChannelCode

namespace ChannelCode

lemma and_one_testBit (x : Nat) : (x &&& 1 = 1) ↔ Nat.testBit x 0 = true := by
  simp [Nat.and_one_is_mod]

lemma toNat_testBit_zero (b : Bool) : (b.toNat).testBit 0 = b := by
  cases b <;> decide

lemma crcUpdate_eq_xor (c : Nat) (b : Bool) :
    crcUpdate c b
      = (c >>> 1) ^^^ (if Nat.testBit (c ^^^ b.toNat) 0 then polynomial else 0) := by
  unfold crcUpdate
  by_cases h : (c ^^^ b.toNat) &&& 1 = 1
  · rw [if_pos h, if_pos ((and_one_testBit _).mp h)]
  · rw [if_neg h, if_neg (fun ht => h ((and_one_testBit _).mpr ht)), Nat.xor_zero]

lemma xor_shiftRight_one (x y : Nat) :
    (x ^^^ y) >>> 1 = (x >>> 1) ^^^ (y >>> 1) := by
  apply Nat.eq_of_testBit_eq
  intro i
  simp [Nat.testBit_shiftRight, Nat.testBit_xor]

lemma xor_rearrange (a b p q : Nat) :
    (a ^^^ p) ^^^ (b ^^^ q) = (a ^^^ b) ^^^ (p ^^^ q) := by
  apply Nat.eq_of_testBit_eq
  intro i
  simp only [Nat.testBit_xor]
  cases a.testBit i <;> cases b.testBit i <;> cases p.testBit i <;> cases q.testBit i <;> rfl

lemma crcUpdate_delta (c1 c2 : Nat) (b : Bool) :
    crcUpdate c1 b ^^^ crcUpdate c2 b = crcUpdate (c1 ^^^ c2) false := by
  rw [crcUpdate_eq_xor, crcUpdate_eq_xor, crcUpdate_eq_xor, xor_rearrange,
    ← xor_shiftRight_one]
  congr 1
  have h1 : Nat.testBit (c1 ^^^ b.toNat) 0 = Bool.xor (c1.testBit 0) b := by
    rw [Nat.testBit_xor, toNat_testBit_zero]
  have h2 : Nat.testBit (c2 ^^^ b.toNat) 0 = Bool.xor (c2.testBit 0) b := by
    rw [Nat.testBit_xor, toNat_testBit_zero]
  have h3 : Nat.testBit ((c1 ^^^ c2) ^^^ (false : Bool).toNat) 0
      = Bool.xor (c1.testBit 0) (c2.testBit 0) := by
    show Nat.testBit ((c1 ^^^ c2) ^^^ 0) 0 = _
    rw [Nat.xor_zero, Nat.testBit_xor]
  rw [h1, h2, h3]
  cases hc1 : c1.testBit 0 <;> cases hc2 : c2.testBit 0 <;> cases b <;>
    simp [Nat.xor_self, Nat.xor_zero, Nat.zero_xor]

lemma polynomial_testBit_31 : Nat.testBit polynomial 31 = true := by decide

lemma polynomial_lt : polynomial < 2 ^ 32 := by decide

lemma crcUpdate_lt (c : Nat) (b : Bool) (h : c < 2 ^ 32) : crcUpdate c b < 2 ^ 32 := by
  unfold crcUpdate
  have h1 : c >>> 1 < 2 ^ 32 := by
    rw [Nat.shiftRight_eq_div_pow]
    exact lt_of_le_of_lt (Nat.div_le_self _ _) h
  split
  · exact Nat.xor_lt_two_pow h1 polynomial_lt
  · exact h1

lemma crcUpdate_false_ne_zero (d : Nat) (hd : d ≠ 0) (hlt : d < 2 ^ 32) :
    crcUpdate d false ≠ 0 := by
  have hzero : (d ^^^ (false : Bool).toNat) = d := Nat.xor_zero d
  unfold crcUpdate
  rw [hzero]
  by_cases h : d &&& 1 = 1
  · rw [if_pos h]
    intro h0
    have h31 : ((d >>> 1) ^^^ polynomial).testBit 31 = true := by
      rw [Nat.testBit_xor, Nat.testBit_shiftRight]
      have h32 : d.testBit 32 = false := Nat.testBit_lt_two_pow (by omega)
      rw [show 1 + 31 = 32 from rfl, h32, polynomial_testBit_31]
      rfl
    rw [h0, Nat.zero_testBit] at h31
    exact Bool.false_ne_true h31
  · rw [if_neg h]
    rw [Nat.shiftRight_eq_div_pow]
    have hm : d % 2 = 0 := by
      rcases Nat.mod_two_eq_zero_or_one d with h2 | h2
      · exact h2
      · exact absurd (by rwa [Nat.and_one_is_mod]) h
    intro h0
    have : d / 2 ^ 1 = d / 2 := by norm_num
    rw [this] at h0
    omega

lemma foldl_crcUpdate_lt (l : List Bool) (c : Nat) (h : c < 2 ^ 32) :
    l.foldl crcUpdate c < 2 ^ 32 := by
  induction l generalizing c with
  | nil => exact h
  | cons b t ih => exact ih _ (crcUpdate_lt _ _ h)

lemma foldl_crcUpdate_ne (l : List Bool) (c1 c2 : Nat)
    (h1 : c1 < 2 ^ 32) (h2 : c2 < 2 ^ 32) (hne : c1 ≠ c2) :
    l.foldl crcUpdate c1 ≠ l.foldl crcUpdate c2 := by
  induction l generalizing c1 c2 with
  | nil => exact hne
  | cons b t ih =>
      refine ih _ _ (crcUpdate_lt _ _ h1) (crcUpdate_lt _ _ h2) ?_
      intro heq
      have hδ : crcUpdate c1 b ^^^ crcUpdate c2 b = 0 := by
        rw [heq, Nat.xor_self]
      rw [crcUpdate_delta] at hδ
      have hnz : c1 ^^^ c2 ≠ 0 := fun h0 => hne (Nat.xor_eq_zero.mp h0)
      exact crcUpdate_false_ne_zero _ hnz (Nat.xor_lt_two_pow h1 h2) hδ

lemma crcUpdate_flip_ne (c : Nat) (b : Bool) :
    crcUpdate c b ≠ crcUpdate c (!b) := by
  intro heq
  have hδ : crcUpdate c b ^^^ crcUpdate c (!b) = 0 := by rw [heq, Nat.xor_self]
  rw [crcUpdate_eq_xor, crcUpdate_eq_xor, xor_rearrange, Nat.xor_self, Nat.zero_xor]
    at hδ
  have h1 : Nat.testBit (c ^^^ b.toNat) 0 = Bool.xor (c.testBit 0) b := by
    rw [Nat.testBit_xor, toNat_testBit_zero]
  have h2 : Nat.testBit (c ^^^ (!b).toNat) 0 = Bool.xor (c.testBit 0) (!b) := by
    rw [Nat.testBit_xor, toNat_testBit_zero]
  rw [h1, h2] at hδ
  have hpoly : polynomial ≠ 0 := by decide
  cases hc : c.testBit 0 <;> cases b <;> rw [hc] at hδ <;>
    simp only [Bool.xor_false, Bool.xor_true, Bool.not_true, Bool.not_false] at hδ <;>
    simp [Nat.xor_zero, Nat.zero_xor] at hδ <;> exact hpoly hδ

end ChannelCode

namespace ChannelCode

lemma flipBit_length (l : List Bool) (i : Nat) : (flipBit l i).length = l.length := by
  simp [flipBit]

lemma flipBit_append_left (l1 l2 : List Bool) (i : Nat) (hi : i < l1.length) :
    flipBit (l1 ++ l2) i = flipBit l1 i ++ l2 := by
  unfold flipBit
  rw [List.set_append_left _ _ hi]
  congr 3
  simp [List.getElem?_append_left hi]

lemma flipBit_append_right (l1 l2 : List Bool) (i : Nat) (hi : l1.length ≤ i) :
    flipBit (l1 ++ l2) i = l1 ++ flipBit l2 (i - l1.length) := by
  unfold flipBit
  rw [List.set_append_right _ _ hi]
  congr 3
  simp [List.getElem?_append_right hi]

lemma flipBit_ne (l : List Bool) (i : Nat) (hi : i < l.length) : flipBit l i ≠ l := by
  intro h
  have h2 := congrArg (fun t => t[i]?) h
  simp only [flipBit] at h2
  rw [List.getElem?_set_self (by simpa using hi), List.getElem?_eq_getElem hi] at h2
  have hg : l.getD i false = l[i] := by
    simp [List.getElem?_eq_getElem hi]
  rw [hg] at h2
  simp at h2

lemma flipBit_eq_decomp (l : List Bool) (i : Nat) (hi : i < l.length) :
    flipBit l i = l.take i ++ (!l[i]) :: l.drop (i + 1) := by
  have hg : l.getD i false = l[i] := by
    simp [List.getElem?_eq_getElem hi]
  rw [flipBit, hg]
  generalize (!l[i]) = x
  conv_lhs => rw [← List.take_append_drop i l, List.drop_eq_getElem_cons hi]
  rw [List.set_append_right _ _ (by simp [List.length_take])]
  have hz : i - (l.take i).length = 0 := by
    simp [List.length_take]
    omega
  rw [hz]
  rfl

lemma crc32_val_flip_ne (l : List Bool) (i : Nat) (hi : i < l.length) :
    crc32_val (flipBit l i) ≠ crc32_val l := by
  intro heq
  have hraw : (flipBit l i).foldl crcUpdate 0xFFFFFFFF
      = l.foldl crcUpdate 0xFFFFFFFF := by
    have := congrArg (fun x => x ^^^ 0xFFFFFFFF) heq
    simpa [crc32_val, Nat.xor_assoc] using this
  rw [flipBit_eq_decomp l i hi] at hraw
  conv_rhs at hraw => rw [← List.take_append_drop i l, List.drop_eq_getElem_cons hi]
  rw [List.foldl_append, List.foldl_append, List.foldl_cons, List.foldl_cons] at hraw
  have hc : (l.take i).foldl crcUpdate 0xFFFFFFFF < 2 ^ 32 :=
    foldl_crcUpdate_lt _ _ (by norm_num)
  refine foldl_crcUpdate_ne (l.drop (i + 1)) _ _
    (crcUpdate_lt _ _ hc) (crcUpdate_lt _ _ hc) ?_ hraw
  exact Ne.symm (crcUpdate_flip_ne _ l[i])
end ChannelCode

namespace ChannelCode

lemma crcValBits_length (c : Nat) : (crcValBits c).length = 32 := by
  simp [crcValBits, crc_length]

lemma crc32_val_lt (l : List Bool) : crc32_val l < 2 ^ 32 :=
  Nat.xor_lt_two_pow (foldl_crcUpdate_lt _ _ (by norm_num)) (by norm_num)

lemma testBit_iff_shift_and (c i : Nat) :
    ((c >>> i) &&& 1 = 1) ↔ c.testBit i = true := by
  simp [Nat.and_one_is_mod, Nat.testBit_to_div_mod, Nat.shiftRight_eq_div_pow]

lemma crcValBits_inj {c1 c2 : Nat} (h1 : c1 < 2 ^ 32) (h2 : c2 < 2 ^ 32)
    (h : crcValBits c1 = crcValBits c2) : c1 = c2 := by
  apply Nat.eq_of_testBit_eq
  intro i
  by_cases hi : i < 32
  · have hmem : i ∈ (List.range crc_length).reverse := by
      simp [crc_length, hi]
    have hpt := (List.map_inj_left.mp h) i hmem
    have hiff : ((c1 >>> i) &&& 1 = 1) ↔ ((c2 >>> i) &&& 1 = 1) :=
      decide_eq_decide.mp hpt
    rw [testBit_iff_shift_and, testBit_iff_shift_and] at hiff
    cases hb1 : c1.testBit i <;> cases hb2 : c2.testBit i <;>
      simp [hb1, hb2] at hiff ⊢
  · have hle : (2 : Nat) ^ 32 ≤ 2 ^ i := Nat.pow_le_pow_right (by norm_num) (by omega)
    rw [Nat.testBit_lt_two_pow (lt_of_lt_of_le h1 hle),
      Nat.testBit_lt_two_pow (lt_of_lt_of_le h2 hle)]

lemma crc32_check_append (data cb : List Bool) (hcb : cb.length = 32) :
    crc32_check (data ++ cb) = (decide (crcValBits (crc32_val data) = cb), data) := by
  have hlen : (data ++ cb).length = data.length + 32 := by simp [hcb]
  have hsub : (data ++ cb).length - crc_length = data.length := by
    rw [hlen]
    show data.length + 32 - 32 = data.length
    omega
  show (if (data ++ cb).length < crc_length then (false, data ++ cb)
        else (decide (crcValBits (crc32_val
                  ((data ++ cb).take ((data ++ cb).length - crc_length)))
                = (data ++ cb).drop ((data ++ cb).length - crc_length)),
              (data ++ cb).take ((data ++ cb).length - crc_length))) = _
  rw [if_neg (by rw [hlen]; show ¬ (data.length + 32 < 32); omega), hsub,
    List.take_left' rfl, List.drop_left' rfl]

lemma crc32_check_encode (payload : List Bool) :
    crc32_check (crc32_encode payload) = (true, payload) := by
  rw [crc32_encode, crc32_check_append _ _ (crcValBits_length _)]
  simp

/-- C2: for every payload, `check (encode payload) = (true, payload)`, and
flipping any single bit of the encoded frame — in the payload part or in the
32-bit checksum suffix — makes `check` return validity `false`. -/
theorem c2_crc_roundtrip_and_single_flip_detection (payload : List Bool) :
    crc32_check (crc32_encode payload) = (true, payload) ∧
    ∀ i : Nat, i < (crc32_encode payload).length →
      (crc32_check (flipBit (crc32_encode payload) i)).1 = false := by
  refine ⟨crc32_check_encode payload, ?_⟩
  intro i hi
  rw [crc32_encode] at hi ⊢
  have hlen2 : (payload ++ crcValBits (crc32_val payload)).length
      = payload.length + 32 := by simp [crcValBits_length]
  rw [hlen2] at hi
  by_cases hp : i < payload.length
  · rw [flipBit_append_left _ _ _ hp,
      crc32_check_append _ _ (crcValBits_length _)]
    apply decide_eq_false
    intro hEq
    have hv := crcValBits_inj (crc32_val_lt _) (crc32_val_lt _) hEq
    exact crc32_val_flip_ne payload i hp hv
  · have hle : payload.length ≤ i := Nat.le_of_not_lt hp
    rw [flipBit_append_right _ _ _ hle,
      crc32_check_append _ _ (by rw [flipBit_length]; exact crcValBits_length _)]
    apply decide_eq_false
    intro hEq
    have hj : i - payload.length < 32 := by omega
    exact flipBit_ne _ _ (by rw [crcValBits_length]; exact hj) hEq.symm

theorem c2_witness :
    crc32_check (crc32_encode [true]) = (true, [true]) ∧
    (crc32_check (flipBit (crc32_encode [true]) 0)).1 = false :=
  ⟨(c2_crc_roundtrip_and_single_flip_detection [true]).1,
   (c2_crc_roundtrip_and_single_flip_detection [true]).2 0 (by decide)⟩

end ChannelCode

namespace ChannelCode

/-- Proof helper: the `w` bits of `n` below position `w`, MSB first. -/
def msbBits : Nat → Nat → List Bool
  | 0, _ => []
  | w + 1, n => n.testBit w :: msbBits w n

lemma sampleToBits_eq (v : ℤ) :
    sampleToBits v = msbBits 16 (v % 65536).toNat := rfl

lemma shiftLeft_or_bit (v : Nat) (b : Bool) :
    (v <<< 1) ||| b.toNat = 2 * v + b.toNat := by
  have hsh : v <<< 1 = 2 * v := by
    rw [Nat.shiftLeft_eq]
    ring
  cases b
  · show (v <<< 1) ||| 0 = 2 * v + 0
    simp [hsh]
  · show (v <<< 1) ||| 1 = 2 * v + 1
    rw [hsh]
    apply Nat.eq_of_testBit_eq
    intro i
    rw [Nat.testBit_or]
    cases i with
    | zero =>
        have h1 : (2 * v) % 2 = 0 := by omega
        have h2 : (2 * v + 1) % 2 = 1 := by omega
        simp [Nat.testBit_zero, h1, h2]
    | succ i =>
        rw [Nat.testBit_to_div_mod, Nat.testBit_to_div_mod, Nat.testBit_to_div_mod]
        have he : (2 : Nat) ^ (i + 1) = 2 * 2 ^ i := by ring
        have hd1 : (2 * v) / 2 ^ (i + 1) = v / 2 ^ i := by
          rw [he, Nat.mul_div_mul_left _ _ (by norm_num)]
        have hd2 : (2 * v + 1) / 2 ^ (i + 1) = v / 2 ^ i := by
          rw [he, ← Nat.div_div_eq_div_mul]
          congr 1
          omega
        have hd3 : (1 : Nat) / 2 ^ (i + 1) = 0 := by
          apply Nat.div_eq_of_lt
          exact Nat.one_lt_two_pow (by omega)
        rw [hd1, hd2, hd3]
        simp

lemma foldl_msbBits (w : Nat) (n : Nat) : ∀ a : Nat,
    (msbBits w n).foldl (fun val bit => (val <<< 1) ||| bit.toNat) a
      = a * 2 ^ w + n % 2 ^ w := by
  induction w with
  | zero => intro a; simp [msbBits, Nat.mod_one]
  | succ w ih =>
      intro a
      show ((n.testBit w :: msbBits w n).foldl
        (fun val bit => (val <<< 1) ||| bit.toNat) a) = _
      rw [List.foldl_cons, ih, shiftLeft_or_bit]
      have hmod : n % 2 ^ (w + 1) = n % 2 ^ w + 2 ^ w * (n / 2 ^ w % 2) := by
        rw [pow_succ]
        exact Nat.mod_mul
      rw [hmod, Nat.testBit_to_div_mod]
      rcases Nat.mod_two_eq_zero_or_one (n / 2 ^ w) with h2 | h2 <;>
        rw [h2] <;> simp <;> ring

lemma bitsVal_sampleToBits (v : ℤ) :
    bitsVal (sampleToBits v) = (v % 65536).toNat := by
  rw [sampleToBits_eq, bitsVal, foldl_msbBits]
  have h1 : (v % 65536).toNat < 65536 := by omega
  have h2 : (2 : Nat) ^ 16 = 65536 := by norm_num
  rw [h2, Nat.mod_eq_of_lt h1]
  omega

lemma sampleOfBits_eq (g : List Bool) :
    sampleOfBits g
      = clipQ (-1) 1
          ((((max (-32768 : ℤ) (min (32767 : ℤ)
              (if bitsVal g &&& 0x8000 ≠ 0 then (bitsVal g : ℤ) - 65536
               else (bitsVal g : ℤ)))) : ℤ) : ℚ) / 32768) := rfl

lemma sampleOfBits_sampleToBits (v : ℤ) (hlo : -32768 ≤ v) (hhi : v ≤ 32767) :
    sampleOfBits (sampleToBits v) = clipQ (-1) 1 ((v : ℚ) / 32768) := by
  rw [sampleOfBits_eq, bitsVal_sampleToBits]
  have hnlt : (v % 65536).toNat < 65536 := by omega
  have hcond : ((v % 65536).toNat &&& 0x8000 ≠ 0) ↔ 32768 ≤ (v % 65536).toNat := by
    rw [(by norm_num : (0x8000 : Nat) = 2 ^ 15), Nat.and_two_pow,
      Nat.testBit_to_div_mod]
    rcases Nat.lt_or_ge (v % 65536).toNat 32768 with h | h
    · have hz : (v % 65536).toNat / 2 ^ 15 % 2 = 0 := by
        have h15 : (2 : Nat) ^ 15 = 32768 := by norm_num
        rw [h15]
        omega
      simp [hz]
      omega
    · have hz : (v % 65536).toNat / 2 ^ 15 % 2 = 1 := by
        have h15 : (2 : Nat) ^ 15 = 32768 := by norm_num
        rw [h15]
        omega
      simp [hz]
      omega
  have hsigned :
      (if (v % 65536).toNat &&& 0x8000 ≠ 0 then ((v % 65536).toNat : ℤ) - 65536
       else ((v % 65536).toNat : ℤ)) = v := by
    by_cases hge : 32768 ≤ (v % 65536).toNat
    · rw [if_pos (hcond.mpr hge)]
      omega
    · rw [if_neg (fun hc => hge (hcond.mp hc))]
      omega
  rw [hsigned]
  have hclip : max (-32768 : ℤ) (min 32767 v) = v := by omega
  rw [hclip]

end ChannelCode

namespace ChannelCode

lemma quantizeSample_bounds (x : ℚ) :
    -32767 ≤ quantizeSample x ∧ quantizeSample x ≤ 32767 := by
  unfold quantizeSample clipQ astypeInt
  set c := max (-1 : ℚ) (min 1 x) with hc
  have h1 : -1 ≤ c := le_max_left _ _
  have h2 : c ≤ 1 := max_le (by norm_num) (min_le_left _ _)
  set y := max (-32768 : ℚ) (min 32767 (32767 * c)) with hy
  have hz1 : (32767 : ℚ) * c ≤ 32767 := by nlinarith
  have hz2 : (-32767 : ℚ) ≤ 32767 * c := by nlinarith
  have hylo : (-32767 : ℚ) ≤ y := by
    have : (-32767 : ℚ) ≤ min 32767 (32767 * c) := le_min (by norm_num) hz2
    exact le_trans this (le_max_right _ _)
  have hyhi : y ≤ 32767 := max_le (by norm_num) (min_le_left _ _)
  constructor
  · split
    · rename_i h0
      have : (0 : ℤ) ≤ ⌊y⌋ := Int.floor_nonneg.mpr h0
      omega
    · have hcast : ⌈(-32767 : ℚ)⌉ = -32767 := by
        rw [show ((-32767 : ℚ)) = (((-32767 : ℤ)) : ℚ) by norm_num, Int.ceil_intCast]
      have := Int.ceil_le_ceil hylo
      rwa [hcast] at this
  · split
    · have hcast : ⌊(32767 : ℚ)⌋ = 32767 := by
        rw [show ((32767 : ℚ)) = (((32767 : ℤ)) : ℚ) by norm_num, Int.floor_intCast]
      have := Int.floor_le_floor hyhi
      rwa [hcast] at this
    · rename_i h0
      have hy0 : y ≤ 0 := le_of_not_le (fun hge => h0 hge)
      have : ⌈y⌉ ≤ 0 := Int.ceil_le.mpr (by exact_mod_cast hy0)
      omega

lemma sampleRoundtrip_val (x : ℚ) :
    sampleRoundtrip x = (quantizeSample x : ℚ) / 32768 := by
  have hb := quantizeSample_bounds x
  unfold sampleRoundtrip
  rw [sampleOfBits_sampleToBits _ (by omega) (by omega)]
  unfold clipQ
  have hc1 : (quantizeSample x : ℚ) ≤ 32767 := by exact_mod_cast hb.2
  have hc2 : (-32767 : ℚ) ≤ (quantizeSample x : ℚ) := by exact_mod_cast hb.1
  have h1 : (quantizeSample x : ℚ) / 32768 ≤ 1 := by
    rw [div_le_one (by norm_num)]
    linarith
  have h2 : (-1 : ℚ) ≤ (quantizeSample x : ℚ) / 32768 := by
    rw [le_div_iff₀ (by norm_num)]
    linarith
  rw [min_eq_right h1, max_eq_right h2]

lemma quantize_error (x : ℚ) (hlo : -1 ≤ x) (hhi : x ≤ 1) :
    |x - sampleRoundtrip x| < 2 / 32768 := by
  rw [sampleRoundtrip_val]
  unfold quantizeSample clipQ astypeInt
  have hc1 : max (-1 : ℚ) (min 1 x) = x := by
    rw [min_eq_right hhi, max_eq_right hlo]
  rw [hc1]
  have hz1 : (32767 : ℚ) * x ≤ 32767 := by nlinarith
  have hz2 : (-32767 : ℚ) ≤ 32767 * x := by nlinarith
  have hc2 : max (-32768 : ℚ) (min 32767 (32767 * x)) = 32767 * x := by
    rw [min_eq_right hz1, max_eq_right (by linarith)]
  rw [hc2]
  rw [abs_lt]
  split
  · rename_i h0
    have hf1 : (⌊(32767 : ℚ) * x⌋ : ℚ) ≤ 32767 * x := Int.floor_le _
    have hf2 : 32767 * x - 1 < (⌊(32767 : ℚ) * x⌋ : ℚ) := Int.sub_one_lt_floor _
    constructor <;> linarith
  · rename_i h0
    have hg0 : 32767 * x < 0 := lt_of_not_le h0
    have hf1 : (32767 : ℚ) * x ≤ (⌈(32767 : ℚ) * x⌉ : ℚ) := Int.le_ceil _
    have hf2 : (⌈(32767 : ℚ) * x⌉ : ℚ) < 32767 * x + 1 := Int.ceil_lt_add_one _
    constructor <;> linarith

end ChannelCode

namespace ChannelCode

lemma chunked1000_flatMap (f : ℤ → List Bool) (l : List ℤ) :
    ((chunked1000 l).map (fun chunk => chunk.flatMap f)).flatten = l.flatMap f := by
  induction l using chunked1000.induct with
  | case1 =>
      rw [chunked1000]
      simp
  | case2 l hnil ih =>
      rw [chunked1000, if_neg hnil]
      rw [List.map_cons, List.flatten_cons, ih, ← List.flatMap_append,
        List.take_append_drop]

lemma audio2bits_safe_eq (audio : List ℚ) :
    audio2bits_safe audio
      = audio.flatMap (fun x => sampleToBits (quantizeSample x)) := by
  unfold audio2bits_safe
  rw [chunked1000_flatMap, List.flatMap_map]

lemma flatMap_sampleToBits_length (xs : List ℚ) :
    (xs.flatMap (fun x => sampleToBits (quantizeSample x))).length = 16 * xs.length := by
  induction xs with
  | nil => rfl
  | cons x t ih =>
      rw [List.flatMap_cons, List.length_append, ih]
      have : (sampleToBits (quantizeSample x)).length = 16 := by
        simp [sampleToBits]
      rw [this, List.length_cons]
      ring

lemma audio2bits_safe_length (audio : List ℚ) :
    (audio2bits_safe audio).length = 16 * audio.length := by
  rw [audio2bits_safe_eq, flatMap_sampleToBits_length]

lemma decodeSamples_flatMap (xs : List ℚ) :
    decodeSamples (xs.flatMap (fun x => sampleToBits (quantizeSample x)))
      = xs.map sampleRoundtrip := by
  induction xs with
  | nil => rfl
  | cons x t ih =>
      rw [List.flatMap_cons, sampleToBits_eq]
      rw [show ∀ (n : Nat) (rest : List Bool),
            decodeSamples (msbBits 16 n ++ rest)
              = sampleOfBits (msbBits 16 n) :: decodeSamples rest
          from fun n rest => rfl]
      rw [← sampleToBits_eq, ih, List.map_cons]
      rfl

lemma bits2audio_safe_roundtrip (xs : List ℚ) :
    bits2audio_safe (audio2bits_safe xs) = xs.map sampleRoundtrip := by
  rw [audio2bits_safe_eq]
  unfold bits2audio_safe
  rw [if_pos (by rw [flatMap_sampleToBits_length]; omega)]
  exact decodeSamples_flatMap xs

end ChannelCode

namespace ChannelCode

lemma hammingDecodeStream_cons7 (b1 b2 b3 b4 b5 b6 b7 : Bool) (S : List Bool) :
    hammingDecodeStream (b1 :: b2 :: b3 :: b4 :: b5 :: b6 :: b7 :: S)
      = hammingDecodeBlock b1 b2 b3 b4 b5 b6 b7 ++ hammingDecodeStream S := rfl

lemma hammingEncodeBlock_eq (d1 d2 d3 d4 : Bool) :
    hammingEncodeBlock d1 d2 d3 d4
      = [Bool.xor (Bool.xor d1 d2) d4, Bool.xor (Bool.xor d1 d3) d4, d1,
         Bool.xor (Bool.xor d2 d3) d4, d2, d3, d4] := rfl

lemma hammingDecodeBlock_encodeBlock :
    ∀ d1 d2 d3 d4 : Bool,
      hammingDecodeBlock (Bool.xor (Bool.xor d1 d2) d4) (Bool.xor (Bool.xor d1 d3) d4)
        d1 (Bool.xor (Bool.xor d2 d3) d4) d2 d3 d4 = [d1, d2, d3, d4] := by
  decide

lemma hammingDecodeStream_encodeBlock (d1 d2 d3 d4 : Bool) (S : List Bool) :
    hammingDecodeStream (hammingEncodeBlock d1 d2 d3 d4 ++ S)
      = [d1, d2, d3, d4] ++ hammingDecodeStream S := by
  rw [hammingEncodeBlock_eq, List.cons_append, List.cons_append, List.cons_append,
    List.cons_append, List.cons_append, List.cons_append, List.cons_append,
    List.nil_append, hammingDecodeStream_cons7, hammingDecodeBlock_encodeBlock]

lemma hammingStream_roundtrip (bits : List Bool) :
    bits.length % 4 = 0 → hammingDecodeStream (hammingEncodeStream bits) = bits := by
  induction bits using hammingEncodeStream.induct with
  | case1 d1 d2 d3 d4 rest ih =>
      intro h
      have h4 : rest.length % 4 = 0 := by
        simp only [List.length_cons] at h
        omega
      show hammingDecodeStream
        (hammingEncodeBlock d1 d2 d3 d4 ++ hammingEncodeStream rest) = _
      rw [hammingDecodeStream_encodeBlock, ih h4]
      rfl
  | case2 t hx =>
      intro h
      rcases t with _ | ⟨a, _ | ⟨b, _ | ⟨c, _ | ⟨d, rest⟩⟩⟩⟩
      · rfl
      · simp at h
      · simp at h
      · simp at h
      · exact absurd rfl (hx a b c d rest)

lemma hammingEncodeStream_length_mod7 (bits : List Bool) :
    (hammingEncodeStream bits).length % 7 = 0 := by
  induction bits using hammingEncodeStream.induct with
  | case1 d1 d2 d3 d4 rest ih =>
      show (hammingEncodeBlock d1 d2 d3 d4 ++ hammingEncodeStream rest).length % 7 = 0
      rw [List.length_append, hammingEncodeBlock_eq]
      simp only [List.length_cons, List.length_nil]
      omega
  | case2 t hx =>
      rcases t with _ | ⟨a, _ | ⟨b, _ | ⟨c, _ | ⟨d, rest⟩⟩⟩⟩
      · rfl
      · rfl
      · rfl
      · rfl
      · exact absurd rfl (hx a b c d rest)

lemma hammingEncodeStream_length (bits : List Bool) :
    bits.length % 4 = 0
      → (hammingEncodeStream bits).length = 7 * (bits.length / 4) := by
  induction bits using hammingEncodeStream.induct with
  | case1 d1 d2 d3 d4 rest ih =>
      intro h
      simp only [List.length_cons] at h
      show (hammingEncodeBlock d1 d2 d3 d4 ++ hammingEncodeStream rest).length = _
      rw [List.length_append, hammingEncodeBlock_eq, ih (by omega)]
      simp only [List.length_cons, List.length_nil]
      omega
  | case2 t hx =>
      intro h
      rcases t with _ | ⟨a, _ | ⟨b, _ | ⟨c, _ | ⟨d, rest⟩⟩⟩⟩
      · rfl
      · simp at h
      · simp at h
      · simp at h
      · exact absurd rfl (hx a b c d rest)

lemma padTo4_length_mod (bits : List Bool) : (padTo4 bits).length % 4 = 0 := by
  simp only [padTo4, List.length_append, List.length_replicate]
  omega

lemma padTo4_of_mod (bits : List Bool) (h : bits.length % 4 = 0) :
    padTo4 bits = bits := by
  unfold padTo4
  rw [h]
  simp

lemma crc32_check_encode_snd (payload : List Bool) :
    (crc32_check (crc32_encode payload)).2 = payload := by
  rw [crc32_check_encode]

lemma crc32_check_encode_fst (payload : List Bool) :
    (crc32_check (crc32_encode payload)).1 = true := by
  rw [crc32_check_encode]

lemma combinedProcessChannel_eq (chan : List ℚ) :
    combinedProcessChannel chan = chan.map sampleRoundtrip := by
  have hlen := audio2bits_safe_length chan
  have h4 : (audio2bits_safe chan).length % 4 = 0 := by omega
  simp only [combinedProcessChannel, addNoiseZero]
  rw [padTo4_of_mod _ h4, crc32_check_encode_snd, hammingStream_roundtrip _ h4,
    List.take_length, bits2audio_safe_roundtrip, List.length_map, Nat.min_self]
  exact List.take_of_length_le (by simp)

lemma combinedCrcOk_true (chan : List ℚ) : combinedCrcOk chan = true := by
  unfold combinedCrcOk addNoiseZero
  exact crc32_check_encode_fst _

end ChannelCode

namespace ChannelCode

lemma quantizeSample_counterexample_val :
    quantizeSample ((-65533 : ℚ)/65534) = -32766 := by
  unfold quantizeSample clipQ astypeInt
  rw [min_eq_right (by norm_num : (-65533 : ℚ)/65534 ≤ 1),
    max_eq_right (by norm_num : (-1 : ℚ) ≤ (-65533 : ℚ)/65534),
    (by norm_num : (32767 : ℚ) * ((-65533 : ℚ)/65534) = (-2147319811 : ℚ)/65534),
    min_eq_right (by norm_num : (-2147319811 : ℚ)/65534 ≤ 32767),
    max_eq_right (by norm_num : (-32768 : ℚ) ≤ (-2147319811 : ℚ)/65534),
    if_neg (by norm_num : ¬ ((0 : ℚ) ≤ (-2147319811 : ℚ)/65534))]
  rw [Int.ceil_eq_iff]
  constructor <;> norm_num

lemma quantizeSample_zero : quantizeSample (0 : ℚ) = 0 := by
  unfold quantizeSample clipQ astypeInt
  rw [min_eq_right (by norm_num : (0 : ℚ) ≤ 1),
    max_eq_right (by norm_num : (-1 : ℚ) ≤ (0 : ℚ)), mul_zero,
    min_eq_right (by norm_num : (0 : ℚ) ≤ 32767),
    max_eq_right (by norm_num : (-32768 : ℚ) ≤ (0 : ℚ)),
    if_pos (le_refl (0 : ℚ))]
  exact Int.floor_zero

lemma sampleRoundtrip_zero : sampleRoundtrip (0 : ℚ) = 0 := by
  rw [sampleRoundtrip_val, quantizeSample_zero]
  norm_num

/-- C3 counterexample: the quantizer truncates toward zero (numpy `astype`)
rather than rounding to nearest, and at the in-range sample
`x = -65533/65534` the reconstruction error of the bit round trip exceeds one
quantization step `1/32768`. -/
theorem c3_counterexample_error_exceeds_one_step :
    ((-1 : ℚ) ≤ -65533/65534 ∧ (-65533 : ℚ)/65534 ≤ 1) ∧
    bits2audio_safe (audio2bits_safe [(-65533 : ℚ)/65534])
      = [(-16383 : ℚ)/16384] ∧
    1/32768 < |(-65533 : ℚ)/65534 - (-16383 : ℚ)/16384| := by
  refine ⟨by norm_num, ?_, ?_⟩
  · rw [bits2audio_safe_roundtrip, List.map_cons, List.map_nil,
      sampleRoundtrip_val, quantizeSample_counterexample_val]
    norm_num
  · rw [lt_abs]
    right
    norm_num

/-- C3 amended: `audioToBits` clamps each sample to [-1, 1], multiplies by
32767 and truncates toward zero (numpy `astype(np.int32)`); for every sample
vector with values in [-1, 1], each reconstructed sample differs from the
original by strictly less than two quantization steps, `2/32768` (the claimed
one-step bound `1/32768` can be exceeded, see the counterexample). -/
theorem c3_amended_roundtrip_error_below_two_steps (xs : List ℚ)
    (h : ∀ x ∈ xs, -1 ≤ x ∧ x ≤ 1) :
    List.Forall₂ (fun x y => |x - y| < 2 / 32768) xs
      (bits2audio_safe (audio2bits_safe xs)) := by
  rw [bits2audio_safe_roundtrip, List.forall₂_map_right_iff, List.forall₂_same]
  intro x hx
  exact quantize_error x (h x hx).1 (h x hx).2

theorem c3_amended_witness :
    List.Forall₂ (fun x y => |x - y| < 2 / 32768) [(0 : ℚ)]
      (bits2audio_safe (audio2bits_safe [(0 : ℚ)])) :=
  c3_amended_roundtrip_error_below_two_steps [(0 : ℚ)] (by norm_num)

/-- C4: with `errorRate = 0` the combined pipeline returns, for every channel,
exactly the per-sample quantization round trip of its input (so the output
equals the input up to quantization rounding only), the CRC check passes, and
a 16-sample all-zero channel comes back as the all-zero channel of the same
length. -/
theorem c4_combined_pipeline_identity_at_zero_error_rate :
    (∀ chan : List ℚ,
        combinedProcessChannel chan = chan.map sampleRoundtrip ∧
        combinedCrcOk chan = true) ∧
    combinedProcessChannel (List.replicate 16 0) = List.replicate 16 0 := by
  refine ⟨fun chan => ⟨combinedProcessChannel_eq chan, combinedCrcOk_true chan⟩, ?_⟩
  rw [combinedProcessChannel_eq, List.map_replicate, sampleRoundtrip_zero]

/-- C8: for every audio channel, the bitstream after quantization is a
multiple of 16 bits; the padded stream before Hamming encoding is a multiple
of 4 bits; the Hamming-encoded stream is a multiple of 7 bits; truncating the
decoded stream to the remembered pre-padding length recovers exactly the
original bitstream; and the standalone `HammingEncoder` output on the same
bitstream is likewise a multiple of 7 bits. -/
theorem c8_stream_length_invariants (chan : List ℚ) :
    (audio2bits_safe chan).length % 16 = 0 ∧
    (padTo4 (audio2bits_safe chan)).length % 4 = 0 ∧
    (hammingEncodeStream (padTo4 (audio2bits_safe chan))).length % 7 = 0 ∧
    (hammingDecodeStream (hammingEncodeStream (padTo4 (audio2bits_safe chan)))).take
        (audio2bits_safe chan).length = audio2bits_safe chan ∧
    (hamming_encode_only (audio2bits_safe chan)).length % 7 = 0 := by
  have hlen := audio2bits_safe_length chan
  have h4 : (audio2bits_safe chan).length % 4 = 0 := by omega
  refine ⟨by omega, padTo4_length_mod _, hammingEncodeStream_length_mod7 _, ?_, ?_⟩
  · rw [padTo4_of_mod _ h4, hammingStream_roundtrip _ h4, List.take_length]
  · unfold hamming_encode_only
    rw [padTo4_of_mod _ h4, List.length_take, hammingEncodeStream_length _ h4]
    omega

end ChannelCode
